import Mathlib

/-!
# Verification of the OONI measurement-archive client

Shallow embedding of `netanalysis/ooni/data/ooni_client.py`: the legacy
index parser, segment planner, frame decoder, the two backend listing
loops, and the unifying `OoniClient`, together with theorems checking the
specification's claims about them.

Python strings are modelled as `List Char`, byte streams as `List Nat`,
machine integers as `Nat` (all quantities involved are non-negative byte
offsets, sizes and counters; Python ints are unbounded so no modular
arithmetic is needed).
-/

namespace OoniSpec

/-- Python `str` is modelled as a list of characters. -/
abbrev Str := List Char

/-- `splitOnChar c s` models Python `s.split(c)`: the list of (possibly
empty) chunks of `s` separated by the character `c`. -/
def splitOnChar (c : Char) : Str → List Str
  | [] => [[]]
  | x :: xs =>
    match splitOnChar c xs with
    | [] => [[x]]
    | g :: gs => if x = c then [] :: g :: gs else (x :: g) :: gs

/-- Models Python `posixpath.basename`: everything after the last `/`. -/
def posixBasename (s : Str) : Str :=
  (s.reverse.takeWhile (fun ch => ch ≠ '/')).reverse

/-- Models Python `posixpath.dirname`: everything before the last `/`
(empty when there is no `/`). -/
def posixDirname (s : Str) : Str :=
  ((s.reverse.dropWhile (fun ch => ch ≠ '/')).drop 1).reverse

/-- Models `PosixPath(key).name` for keys without a trailing slash. -/
def pathName (s : Str) : Str := posixBasename s

/-- Models `PosixPath(key).parent.name`. -/
def pathParentName (s : Str) : Str := posixBasename (posixDirname s)

/-- Embeds `_LegacyOoniClient._test_type_for_match`, which is
`measurement_type.replace('_', '')`: remove every underscore. -/
def test_type_for_match (measurement_type : Str) : Str :=
  measurement_type.filter (fun ch => ch != '_')

/-- Embeds `_LegacyOoniClient._filename_matches` from
`ooni_client.py`: split the basename on `-`; fewer than 4 fields never
match; otherwise field 1 must equal the country and field 3 with
underscores removed must equal the requested test type. -/
def filename_matches (filename test_type country : Str) : Bool :=
  let basename := posixBasename filename
  let parts := splitOnChar '-' basename
  if parts.length < 4 then false
  else parts[1]! == country && test_type_for_match parts[3]! == test_type

/-- The example legacy report filename from the source comment. -/
def exampleReportName : Str :=
  ("20200801T144129Z-BR-AS28573-web_connectivity-" ++
   "20200801T144133Z_AS28573_hlwQt15JxAkU6kYEfTrZL8JbTrTY06WzBRAUIu6zR4b6H3ww7m-0.2.0-probe.json.lz4").toList

/-- C4: the legacy report filename match splits the basename on `-`,
returns `false` whenever there are fewer than 4 dash-separated fields,
and otherwise returns `true` iff field 1 equals the requested country and
field 3 with underscores removed equals the requested test type; the
example name matches `("webconnectivity", "BR")` and matches neither
country `"AR"` nor type `"webconnectivity2"`. -/
theorem filename_matches_spec :
    (∀ fn t c : Str, (splitOnChar '-' (posixBasename fn)).length < 4 →
      filename_matches fn t c = false)
    ∧ (∀ fn t c : Str, 4 ≤ (splitOnChar '-' (posixBasename fn)).length →
        (filename_matches fn t c = true ↔
          (splitOnChar '-' (posixBasename fn))[1]! = c ∧
          test_type_for_match (splitOnChar '-' (posixBasename fn))[3]! = t))
    ∧ filename_matches exampleReportName "webconnectivity".toList "BR".toList = true
    ∧ filename_matches exampleReportName "webconnectivity".toList "AR".toList = false
    ∧ filename_matches exampleReportName "webconnectivity2".toList "BR".toList = false := by
  refine ⟨?_, ?_, by decide, by decide, by decide⟩
  · intro fn t c h
    simp only [filename_matches, if_pos h]
  · intro fn t c h
    simp only [filename_matches, if_neg (Nat.not_lt.mpr h), Bool.and_eq_true, beq_iff_eq]

/-- Witness for C4 at concrete inputs: a two-field name is rejected by the
short-name clause, and a four-field name is decided by the field test. -/
theorem filename_matches_spec_witness :
    ((splitOnChar '-' (posixBasename "a-b".toList)).length < 4
      ∧ filename_matches "a-b".toList "t".toList "c".toList = false)
    ∧ (4 ≤ (splitOnChar '-' (posixBasename "a-BR-x-web_connectivity".toList)).length
      ∧ (filename_matches "a-BR-x-web_connectivity".toList "webconnectivity".toList "BR".toList = true ↔
          (splitOnChar '-' (posixBasename "a-BR-x-web_connectivity".toList))[1]! = "BR".toList ∧
          test_type_for_match (splitOnChar '-' (posixBasename "a-BR-x-web_connectivity".toList))[3]! =
            "webconnectivity".toList)) :=
  ⟨⟨by decide, filename_matches_spec.1 _ _ _ (by decide)⟩,
   ⟨by decide, (filename_matches_spec.2.1 _ _ _ (by decide))⟩⟩

/-! ## Dates -/

/-- Python `datetime.date`: compared lexicographically. -/
structure Date where
  year : Nat
  month : Nat
  day : Nat
deriving DecidableEq

/-- Strict `<` on dates (Python date comparison), as a Bool. -/
def Date.ltb (a b : Date) : Bool :=
  if a.year < b.year then true
  else if b.year < a.year then false
  else if a.month < b.month then true
  else if b.month < a.month then false
  else decide (a.day < b.day)

/-- Last legacy date directory, from the source comment and the guard
`if first_date > dt.date(2020, 10, 21): return`. -/
def legacyCutover : Date := ⟨2020, 10, 21⟩

/-- First modern date directory, from the guard
`if last_date < dt.date(2020, 10, 20): return`. -/
def modernCutover : Date := ⟨2020, 10, 20⟩

/-! ## The legacy index model (`_files_from_index`) -/

/-- A `datum` index entry: position and length of one serialized record
within the decompressed text. -/
structure Datum where
  text_off : Nat
  text_size : Nat
deriving DecidableEq

/-- The accumulated `frame` dict: `file_off`, `file_size` and the `data`
list grown by matching `datum` entries. -/
structure FrameAcc where
  file_off : Nat
  file_size : Nat
  data : List Datum
deriving DecidableEq

/-- The accumulated `file` dict: `filename` plus the `frames` list grown
on `/frame`. -/
structure FileAcc where
  filename : Str
  frames : List FrameAcc
deriving DecidableEq

/-- One line of the legacy `index.json.gz` stream, already JSON-decoded:
the `type` tag together with the fields the parser reads. -/
inductive IndexLine where
  | file (filename : Str)
  | endFile
  | report (textname : Str)
  | endReport
  | frame (file_off file_size : Nat)
  | endFrame
  | datum (text_off text_size : Nat)
deriving DecidableEq

/-- Generator state of `_LegacyOoniClient._files_from_index`. `none`
models the empty dict `{}`. `yielded` collects the files yielded so far;
`errored` records that the Python code would have raised a `KeyError`
(appending to a key missing from `{}`), after which no further lines are
processed and nothing more is yielded. -/
structure IdxState where
  current_file : Option FileAcc
  current_frame : Option FrameAcc
  output_measurements : Bool
  yielded : List FileAcc
  errored : Bool
deriving DecidableEq

/-- Initial parser state: `current_file = {}`, `current_frame = {}`,
`output_measurements = False`. -/
def idxInit : IdxState := ⟨none, none, false, [], false⟩

/-- One step of `_files_from_index` on one index line, transcribed
branch-for-branch from the source. -/
def idxStep (test_type country : Str) (s : IdxState) (l : IndexLine) : IdxState :=
  if s.errored then s else
  match l with
  | .file fn => { s with current_file := some ⟨fn, []⟩ }
  | .endFile =>
    match s.current_file with
    | some f =>
      if f.frames.length > 0 then
        { s with yielded := s.yielded ++ [f], current_file := none }
      else
        { s with current_file := none }
    | none => s
  | .report tn =>
    if filename_matches tn test_type country then
      { s with output_measurements := true }
    else s
  | .endReport => { s with output_measurements := false }
  | .frame off sz => { s with current_frame := some ⟨off, sz, []⟩ }
  | .endFrame =>
    match s.current_frame with
    | none => s
    | some fr =>
      if fr.data.length > 0 then
        match s.current_file with
        | none => { s with errored := true }
        | some f =>
          { s with current_file := some ⟨f.filename, f.frames ++ [fr]⟩,
                   current_frame := none }
      else s
  | .datum off sz =>
    if s.output_measurements then
      match s.current_frame with
      | none => { s with errored := true }
      | some fr =>
        { s with current_frame := some ⟨fr.file_off, fr.file_size, fr.data ++ [⟨off, sz⟩]⟩ }
    else s

/-- Embeds `_LegacyOoniClient._files_from_index`: the files yielded over a
whole index stream. -/
def files_from_index (lines : List IndexLine) (test_type country : Str) : List FileAcc :=
  (lines.foldl (idxStep test_type country) idxInit).yielded

/-- Embeds `_LegacyOoniClient._frame_bytes`: the running total of
`frame['file_size']`. -/
def frame_bytes (frames : List FrameAcc) : Nat :=
  frames.foldl (fun b f => b + f.file_size) 0

/-! ## The segment planner (`_get_measurements`, merging loop) -/

/-- One planned segment: `segment_start`, the final `segment_end`, and the
frames merged into it. -/
structure Segment where
  seg_start : Nat
  seg_end : Nat
  frames : List FrameAcc
deriving DecidableEq

/-- The inner merging loop of `_LegacyOoniClient._get_measurements`:
starting from `segment_end = segEnd`, keep taking frames while
`frames[fi]['file_off'] == segment_end`, adding each taken frame's
`file_size` to `segment_end`. Returns the merged frames, the final
`segment_end`, and the remaining frames. -/
def growSegment (segEnd : Nat) : List FrameAcc → List FrameAcc × Nat × List FrameAcc
  | [] => ([], segEnd, [])
  | f :: rest =>
    if f.file_off = segEnd then
      let r := growSegment (segEnd + f.file_size) rest
      (f :: r.1, r.2.1, r.2.2)
    else
      ([], segEnd, f :: rest)

theorem growSegment_rest_length (segEnd : Nat) (l : List FrameAcc) :
    (growSegment segEnd l).2.2.length ≤ l.length := by
  induction l generalizing segEnd with
  | nil => simp [growSegment]
  | cons f rest ih =>
    by_cases h : f.file_off = segEnd
    · simpa [growSegment, h] using Nat.le_succ_of_le (ih (segEnd + f.file_size))
    · simp [growSegment, h]

/-- The outer loop of `_LegacyOoniClient._get_measurements`: split the
frame list into segments, each started at the next frame's `file_off` and
grown while offsets stay contiguous. -/
def planSegments : List FrameAcc → List Segment
  | [] => []
  | f :: rest =>
    let r := growSegment (f.file_off + f.file_size) rest
    ⟨f.file_off, r.2.1, f :: r.1⟩ :: planSegments r.2.2
termination_by l => l.length
decreasing_by
  exact Nat.lt_succ_of_le (growSegment_rest_length _ _)

/-! ## The frame decoder (`_get_measurements`, decode loop) -/

/-- The per-datum read loop of `_get_measurements` over one segment's
decompressed stream. `pos` is the actual read position inside the stream
(a read past the end returns what is left); `bytesRead` is the source's
`bytes_read` cursor. Per datum: skip `text_off - bytes_read` bytes when
positive, read `text_size` bytes as the record, set
`bytes_read = text_off + text_size`. -/
def decodeGo (stream : List Nat) (pos bytesRead : Nat) : List Datum → List (List Nat)
  | [] => []
  | d :: ds =>
    let pos1 := if bytesRead < d.text_off
                then min (pos + (d.text_off - bytesRead)) stream.length
                else pos
    let record := (stream.drop pos1).take d.text_size
    let pos2 := min (pos1 + d.text_size) stream.length
    record :: decodeGo stream pos2 (d.text_off + d.text_size) ds

/-- Decoding one segment: `bytes_read` starts at 0 for each segment, and
the data of the segment's frames are read in frame order. -/
def decodeSegment (stream : List Nat) (frames : List FrameAcc) : List (List Nat) :=
  decodeGo stream 0 0 (frames.flatMap FrameAcc.data)

/-- Result of fully consuming `_LegacyOoniClient._get_measurements` for
one file: the record byte strings yielded, the number of ranged GET
requests issued, and the bytes-downloaded increment. -/
structure LegacyFetchResult where
  records : List (List Nat)
  gets : Nat
  bytes : Nat
deriving DecidableEq

/-- Embeds `_LegacyOoniClient._get_measurements`. `decomp start stop` is
the decompressed content of the object's byte range
`[start, stop)` (the LZ4 frame stream of the fetched segment): one ranged
GET per segment, `bytes_downloaded += segment_end - segment_start`, and
the segment's data decoded against a fresh `bytes_read = 0` cursor. -/
def legacy_get_measurements (decomp : Nat → Nat → List Nat) (file : FileAcc) :
    LegacyFetchResult :=
  let segs := planSegments file.frames
  { records := segs.flatMap (fun s => decodeSegment (decomp s.seg_start s.seg_end) s.frames)
  , gets := segs.length
  , bytes := (segs.map (fun s => s.seg_end - s.seg_start)).sum }

/-! ## Segment-planner theory (claim C1) -/

/-- Two frames are contiguous when the second starts exactly where the
first ends in the compressed file. -/
def contigFrames (a b : FrameAcc) : Prop :=
  b.file_off = a.file_off + a.file_size

instance : DecidableRel contigFrames := fun a b =>
  inferInstanceAs (Decidable (b.file_off = a.file_off + a.file_size))

/-- First byte offset of a frame run (0 for the empty run). -/
def runStart : List FrameAcc → Nat
  | [] => 0
  | f :: _ => f.file_off

/-- One past the last byte offset of a frame run (0 for the empty run). -/
def runStop (r : List FrameAcc) : Nat :=
  match r.getLast? with
  | none => 0
  | some f => f.file_off + f.file_size

/-- The segment a contiguous run should be planned into. -/
def mkSeg (r : List FrameAcc) : Segment := ⟨runStart r, runStop r, r⟩

/-- The byte range of a segment, as a set of offsets. -/
def segRange (s : Segment) : Set Nat := Set.Ico s.seg_start s.seg_end

/-- The byte range of a frame, as a set of offsets. -/
def frameRange (f : FrameAcc) : Set Nat := Set.Ico f.file_off (f.file_off + f.file_size)

theorem runStop_cons_cons (f g : FrameAcc) (r : List FrameAcc) :
    runStop (f :: g :: r) = runStop (g :: r) := by
  simp only [runStop, List.getLast?_cons_cons]

theorem runStop_singleton (f : FrameAcc) :
    runStop [f] = f.file_off + f.file_size := rfl

/-- The merging loop consumes exactly a chain of contiguous frames and
stops at the first offset mismatch. -/
theorem growSegment_chain (prev : FrameAcc) (r rest : List FrameAcc)
    (hchain : List.Chain contigFrames prev r)
    (hstop : ∀ g, rest.head? = some g → g.file_off ≠ runStop (prev :: r)) :
    growSegment (prev.file_off + prev.file_size) (r ++ rest) =
      (r, runStop (prev :: r), rest) := by
  induction r generalizing prev with
  | nil =>
    cases rest with
    | nil => simp [growSegment, runStop_singleton]
    | cons g rest' =>
      have hg : g.file_off ≠ prev.file_off + prev.file_size := by
        simpa [runStop_singleton] using hstop g rfl
      simp [growSegment, hg, runStop_singleton]
  | cons g r' ih =>
    rcases hchain with _ | ⟨hg, hchain'⟩
    have hgoff : g.file_off = prev.file_off + prev.file_size := hg
    have hstop' : ∀ y, rest.head? = some y → y.file_off ≠ runStop (g :: r') := by
      intro y hy
      have h := hstop y hy
      rwa [runStop_cons_cons] at h
    have hrec := ih g hchain' hstop'
    rw [List.cons_append]
    simp only [growSegment]
    rw [if_pos hgoff, ← hgoff, hrec, runStop_cons_cons]

/-- Planning a list that starts with a maximal contiguous run peels off
exactly that run as one segment spanning `[runStart, runStop)`. -/
theorem planSegments_run (f : FrameAcc) (r rest : List FrameAcc)
    (hchain : List.Chain contigFrames f r)
    (hstop : ∀ g, rest.head? = some g → g.file_off ≠ runStop (f :: r)) :
    planSegments ((f :: r) ++ rest) = mkSeg (f :: r) :: planSegments rest := by
  rw [List.cons_append, planSegments, growSegment_chain f r rest hchain hstop]
  rfl

/-- Planning a concatenation of non-empty contiguous runs separated by
offset gaps yields exactly one segment per run. -/
theorem planSegments_flatten_runs (runs : List (List FrameAcc))
    (hne : ∀ r ∈ runs, r ≠ [])
    (hchain : ∀ r ∈ runs, List.Chain' contigFrames r)
    (hgap : runs.Chain' (fun r1 r2 => runStart r2 ≠ runStop r1)) :
    planSegments runs.flatten = runs.map mkSeg := by
  induction runs with
  | nil => simp [planSegments]
  | cons r runs' ih =>
    obtain ⟨f, rtl, rfl⟩ : ∃ f rtl, r = f :: rtl := by
      cases r with
      | nil => exact absurd rfl (hne [] (List.mem_cons_self _ _))
      | cons f rtl => exact ⟨f, rtl, rfl⟩
    have hchainr : List.Chain contigFrames f rtl := hchain _ (List.mem_cons_self _ _)
    have hstop : ∀ g, runs'.flatten.head? = some g → g.file_off ≠ runStop (f :: rtl) := by
      intro g hg
      cases runs' with
      | nil => simp at hg
      | cons r2 runs'' =>
        obtain ⟨f2, rtl2, rfl⟩ : ∃ f2 rtl2, r2 = f2 :: rtl2 := by
          cases r2 with
          | nil => exact absurd rfl (hne [] (by simp))
          | cons f2 rtl2 => exact ⟨f2, rtl2, rfl⟩
        have hgf : f2 = g := by simpa using hg
        subst hgf
        exact (List.chain'_cons.mp hgap).1
    rw [List.flatten_cons, planSegments_run f rtl runs'.flatten hchainr hstop, List.map_cons]
    congr 1
    exact ih (fun r hr => hne r (List.mem_cons_of_mem _ hr))
      (fun r hr => hchain r (List.mem_cons_of_mem _ hr)) hgap.tail

/-- A non-empty contiguous run starts no later than it stops. -/
theorem runStart_le_runStop (r : List FrameAcc) (hne : r ≠ [])
    (hchain : List.Chain' contigFrames r) : runStart r ≤ runStop r := by
  induction r with
  | nil => exact absurd rfl hne
  | cons f rtl ih =>
    cases rtl with
    | nil => simp [runStart, runStop_singleton]
    | cons g rtl' =>
      rcases List.chain'_cons.mp hchain with ⟨hfg, hchain'⟩
      have h1 : runStart (g :: rtl') ≤ runStop (g :: rtl') := ih (by simp) hchain'
      rw [runStop_cons_cons]
      calc runStart (f :: g :: rtl') = f.file_off := rfl
        _ ≤ f.file_off + f.file_size := Nat.le_add_right _ _
        _ = g.file_off := hfg.symm
        _ ≤ runStop (g :: rtl') := h1

theorem listBUnion_cons {α : Type} (a : α) (t : List α) (F : α → Set Nat) :
    (⋃ x ∈ (a :: t), F x) = F a ∪ ⋃ x ∈ t, F x := by
  ext y
  simp [List.mem_cons, exists_eq_or_imp]

/-- The byte range of a contiguous run's segment is exactly the union of
its frames' byte ranges. -/
theorem mkSeg_range_eq (r : List FrameAcc) (hne : r ≠ [])
    (hchain : List.Chain' contigFrames r) :
    segRange (mkSeg r) = ⋃ f ∈ r, frameRange f := by
  induction r with
  | nil => exact absurd rfl hne
  | cons f rtl ih =>
    cases rtl with
    | nil =>
      rw [listBUnion_cons]
      simp [segRange, mkSeg, runStart, runStop_singleton, frameRange]
    | cons g rtl' =>
      rcases List.chain'_cons.mp hchain with ⟨hfg, hchain'⟩
      have hioc : segRange (mkSeg (f :: g :: rtl')) =
          frameRange f ∪ segRange (mkSeg (g :: rtl')) := by
        have h1 : f.file_off ≤ f.file_off + f.file_size := Nat.le_add_right _ _
        have h2 : f.file_off + f.file_size ≤ runStop (g :: rtl') := by
          rw [← hfg]
          exact runStart_le_runStop _ (by simp) hchain'
        have hu := Set.Ico_union_Ico_eq_Ico h1 h2
        simp only [segRange, mkSeg, frameRange, runStop_cons_cons, runStart]
        rw [hfg]
        exact hu.symm
      rw [hioc, ih (by simp) hchain']
      exact (listBUnion_cons f (g :: rtl') frameRange).symm

/-- Consecutive runs separated by strict gaps: every later run starts
strictly after any earlier run stops. -/
theorem chain_gapLt_all (rs : List (List FrameAcc)) (r : List FrameAcc)
    (hst : ∀ x ∈ rs, runStart x ≤ runStop x)
    (hc : List.Chain (fun r1 r2 => runStop r1 < runStart r2) r rs) :
    ∀ r2 ∈ rs, runStop r < runStart r2 := by
  induction rs generalizing r with
  | nil => intro r2 h; exact absurd h (List.not_mem_nil _)
  | cons s rest ih =>
    rcases hc with _ | ⟨hrs, hc'⟩
    intro r2 hr2
    rcases List.mem_cons.mp hr2 with rfl | hr2'
    · exact hrs
    · have hs : runStop s < runStart r2 :=
        ih s (fun x hx => hst x (List.mem_cons_of_mem _ hx)) hc' r2 hr2'
      calc runStop r < runStart s := hrs
        _ ≤ runStop s := hst s (List.mem_cons_self _ _)
        _ < runStart r2 := hs

/-- The merging loop's final `segment_end` exceeds the initial one by
exactly the taken frames' total `file_size`, and taken plus remaining
frames are the input. -/
theorem growSegment_parts (e : Nat) (l : List FrameAcc) :
    (growSegment e l).2.1 = e + ((growSegment e l).1.map FrameAcc.file_size).sum
    ∧ (growSegment e l).1 ++ (growSegment e l).2.2 = l := by
  induction l generalizing e with
  | nil => simp [growSegment]
  | cons f rest ih =>
    by_cases h : f.file_off = e
    · have h1 := (ih (e + f.file_size)).1
      have h2 := (ih (e + f.file_size)).2
      constructor
      · simp [growSegment, h, h1, Nat.add_assoc]
      · simp [growSegment, h, h2]
    · simp [growSegment, h]

/-- The planned segments' frame lists partition the input frame list in
order: every frame lands in exactly one segment. -/
theorem planSegments_frames_flatten (l : List FrameAcc) :
    ((planSegments l).map Segment.frames).flatten = l := by
  induction l using planSegments.induct with
  | case1 => simp [planSegments]
  | case2 f rest r ih =>
    have hr : r = growSegment (f.file_off + f.file_size) rest := rfl
    have hsplit := (growSegment_parts (f.file_off + f.file_size) rest).2
    rw [← hr] at hsplit
    rw [planSegments]
    simp only [List.map_cons, List.flatten_cons, ← hr]
    rw [ih, List.cons_append, hsplit]

/-- Runs separated by strict forward gaps are pairwise separated. -/
theorem gap_chain_pairwise (runs : List (List FrameAcc))
    (hst : ∀ x ∈ runs, runStart x ≤ runStop x)
    (hgap : runs.Chain' (fun r1 r2 => runStop r1 < runStart r2)) :
    runs.Pairwise (fun r1 r2 => runStop r1 < runStart r2) := by
  induction runs with
  | nil => exact List.Pairwise.nil
  | cons r rs ih =>
    have hc : List.Chain (fun r1 r2 => runStop r1 < runStart r2) r rs := hgap
    refine List.Pairwise.cons ?_ (ih (fun x hx => hst x (List.mem_cons_of_mem _ hx)) hgap.tail)
    exact chain_gapLt_all rs r (fun x hx => hst x (List.mem_cons_of_mem _ hx)) hc

theorem flatten_map_singleton (l : List FrameAcc) :
    (l.map fun f => [f]).flatten = l := by
  induction l with
  | nil => rfl
  | cons a t ih => simp [ih]

/-- C1: for frames ordered by `file_off` ascending and forming `K`
disjoint contiguous runs, the legacy segment planner merges exactly the
contiguous neighbours: it produces one segment per run (so `K` segments,
each spanning `[runStart, runStop)` of its run), the segments' byte
ranges are pairwise disjoint, and their union is the union of all frame
byte ranges; a single contiguous run yields exactly one segment spanning
`[frames[0].file_off, last.file_off + last.file_size)`, and a fully
fragmented file yields one one-frame segment per frame. -/
theorem segment_planner_correct (runs : List (List FrameAcc))
    (hne : ∀ r ∈ runs, r ≠ [])
    (hchain : ∀ r ∈ runs, List.Chain' contigFrames r)
    (hgap : runs.Chain' (fun r1 r2 => runStop r1 < runStart r2)) :
    planSegments runs.flatten = runs.map mkSeg
    ∧ (planSegments runs.flatten).length = runs.length
    ∧ (planSegments runs.flatten).Pairwise (fun s t => Disjoint (segRange s) (segRange t))
    ∧ (⋃ s ∈ planSegments runs.flatten, segRange s) = ⋃ f ∈ runs.flatten, frameRange f
    ∧ (∀ r : List FrameAcc, r ≠ [] → List.Chain' contigFrames r →
        planSegments r = [⟨runStart r, runStop r, r⟩])
    ∧ (∀ l : List FrameAcc,
        l.Chain' (fun a b => a.file_off + a.file_size < b.file_off) →
        planSegments l = l.map fun f => ⟨f.file_off, f.file_off + f.file_size, [f]⟩)
    ∧ ∀ l : List FrameAcc, ((planSegments l).map Segment.frames).flatten = l := by
  have hgapne : runs.Chain' (fun r1 r2 => runStart r2 ≠ runStop r1) :=
    hgap.imp (fun _ _ h => ne_of_gt h)
  have h1 : planSegments runs.flatten = runs.map mkSeg :=
    planSegments_flatten_runs runs hne hchain hgapne
  have hst : ∀ x ∈ runs, runStart x ≤ runStop x :=
    fun x hx => runStart_le_runStop x (hne x hx) (hchain x hx)
  refine ⟨h1, by rw [h1]; simp, ?_, ?_, ?_, ?_, fun l => planSegments_frames_flatten l⟩
  · rw [h1]
    refine List.pairwise_map.mpr ((gap_chain_pairwise runs hst hgap).imp ?_)
    intro r1 r2 h
    refine Set.Ico_disjoint_Ico.mpr ?_
    calc min (runStop r1) (runStop r2) ≤ runStop r1 := min_le_left _ _
      _ ≤ runStart r2 := le_of_lt h
      _ ≤ max (runStart r1) (runStart r2) := le_max_right _ _
  · rw [h1]
    ext x
    simp only [Set.mem_iUnion, exists_prop, List.mem_map, List.mem_flatten]
    constructor
    · rintro ⟨s, ⟨r, hr, rfl⟩, hx⟩
      rw [mkSeg_range_eq r (hne r hr) (hchain r hr)] at hx
      simp only [Set.mem_iUnion, exists_prop] at hx
      obtain ⟨f, hf, hxf⟩ := hx
      exact ⟨f, ⟨r, hr, hf⟩, hxf⟩
    · rintro ⟨f, ⟨r, hr, hf⟩, hxf⟩
      refine ⟨mkSeg r, ⟨r, hr, rfl⟩, ?_⟩
      rw [mkSeg_range_eq r (hne r hr) (hchain r hr)]
      simp only [Set.mem_iUnion, exists_prop]
      exact ⟨f, hf, hxf⟩
  · intro r hr hc
    have h := planSegments_flatten_runs [r] (by simpa using hr) (by simpa using hc) (by simp)
    simpa [mkSeg] using h
  · intro l hl
    have h := planSegments_flatten_runs (l.map fun f => [f])
      (by
        intro r hr
        obtain ⟨f, _, rfl⟩ := List.mem_map.mp hr
        simp)
      (by
        intro r hr
        obtain ⟨f, _, rfl⟩ := List.mem_map.mp hr
        exact List.chain'_singleton f)
      (by
        refine (List.chain'_map _).mpr (hl.imp ?_)
        intro a b hab
        simpa [runStop_singleton, runStart] using ne_of_gt hab)
    rw [flatten_map_singleton] at h
    rw [h, List.map_map]
    refine List.map_congr_left ?_
    intro f _
    simp [mkSeg, runStart, runStop_singleton, Function.comp]

/-- Concrete frames for the C1 witness: one two-frame contiguous run
followed, after a gap, by a one-frame run. -/
def frA : FrameAcc := ⟨0, 10, []⟩

def frB : FrameAcc := ⟨10, 5, []⟩

def frC : FrameAcc := ⟨20, 7, []⟩

def exRuns : List (List FrameAcc) := [[frA, frB], [frC]]

/-- Witness for C1 at the concrete run decomposition `exRuns`. -/
theorem segment_planner_correct_witness :
    planSegments exRuns.flatten = exRuns.map mkSeg
    ∧ (planSegments exRuns.flatten).length = exRuns.length
    ∧ (planSegments exRuns.flatten).Pairwise (fun s t => Disjoint (segRange s) (segRange t))
    ∧ (⋃ s ∈ planSegments exRuns.flatten, segRange s) = ⋃ f ∈ exRuns.flatten, frameRange f
    ∧ (∀ r : List FrameAcc, r ≠ [] → List.Chain' contigFrames r →
        planSegments r = [⟨runStart r, runStop r, r⟩])
    ∧ (∀ l : List FrameAcc,
        l.Chain' (fun a b => a.file_off + a.file_size < b.file_off) →
        planSegments l = l.map fun f => ⟨f.file_off, f.file_off + f.file_size, [f]⟩)
    ∧ ∀ l : List FrameAcc, ((planSegments l).map Segment.frames).flatten = l :=
  segment_planner_correct exRuns (by decide)
    (by
      intro r hr
      rcases List.mem_cons.mp hr with rfl | hr
      · exact List.chain'_cons.mpr ⟨rfl, List.chain'_singleton _⟩
      · rcases List.mem_cons.mp hr with rfl | hr
        · exact List.chain'_singleton _
        · exact absurd hr (List.not_mem_nil _))
    (List.chain'_cons.mpr ⟨by decide, List.chain'_singleton _⟩)

/-! ## Index-parser invariants (claim C5) -/

/-- Invariant of the parser state: every yielded file has a non-empty
frame list whose frames all hold at least one datum, and every frame
already attached to the open file holds at least one datum. -/
def idxInv (s : IdxState) : Prop :=
  (∀ f ∈ s.yielded, f.frames ≠ [] ∧ ∀ fr ∈ f.frames, fr.data ≠ []) ∧
  ∀ f, s.current_file = some f → ∀ fr ∈ f.frames, fr.data ≠ []

theorem idxStep_inv (t c : Str) (s : IdxState) (l : IndexLine)
    (h : idxInv s) : idxInv (idxStep t c s l) := by
  obtain ⟨hy, hcf⟩ := h
  unfold idxStep
  by_cases he : s.errored
  · rw [if_pos he]
    exact ⟨hy, hcf⟩
  rw [if_neg he]
  cases l with
  | file fn =>
    refine ⟨hy, ?_⟩
    intro f hf fr hfr
    cases hf
    exact absurd hfr (List.not_mem_nil fr)
  | endFile =>
    rcases hsf : s.current_file with _ | f
    · exact ⟨hy, hcf⟩
    · dsimp only
      by_cases hlen : f.frames.length > 0
      · rw [if_pos hlen]
        refine ⟨?_, ?_⟩
        · intro x hx
          rcases List.mem_append.mp hx with hx | hx
          · exact hy x hx
          · have hxf : x = f := by simpa using hx
            subst hxf
            exact ⟨List.ne_nil_of_length_pos hlen, hcf x hsf⟩
        · intro f' hf'
          exact absurd hf' (by simp)
      · rw [if_neg hlen]
        refine ⟨hy, ?_⟩
        intro f' hf'
        exact absurd hf' (by simp)
  | report tn =>
    dsimp only
    by_cases hm : filename_matches tn t c
    · rw [if_pos hm]
      exact ⟨hy, hcf⟩
    · rw [if_neg hm]
      exact ⟨hy, hcf⟩
  | endReport => exact ⟨hy, hcf⟩
  | frame off sz => exact ⟨hy, hcf⟩
  | endFrame =>
    rcases hsf : s.current_frame with _ | fr
    · exact ⟨hy, hcf⟩
    · dsimp only
      by_cases hlen : fr.data.length > 0
      · rw [if_pos hlen]
        rcases hsc : s.current_file with _ | f
        · dsimp only
          refine ⟨hy, ?_⟩
          intro f' hf'
          exact Option.noConfusion hf'
        · dsimp only
          refine ⟨hy, ?_⟩
          intro f' hf' fr' hfr'
          have hf'' : f' = ⟨f.filename, f.frames ++ [fr]⟩ := by
            simpa using hf'.symm
          subst hf''
          rcases List.mem_append.mp hfr' with hx | hx
          · exact hcf f hsc fr' hx
          · have : fr' = fr := by simpa using hx
            subst this
            exact List.ne_nil_of_length_pos hlen
      · rw [if_neg hlen]
        exact ⟨hy, hcf⟩
  | datum off sz =>
    dsimp only
    by_cases ho : s.output_measurements
    · rw [if_pos ho]
      rcases hsf : s.current_frame with _ | fr
      · exact ⟨hy, hcf⟩
      · exact ⟨hy, hcf⟩
    · rw [if_neg ho]
      exact ⟨hy, hcf⟩

theorem idxFold_inv (t c : Str) (lines : List IndexLine) (s : IdxState)
    (h : idxInv s) : idxInv (lines.foldl (idxStep t c) s) := by
  induction lines generalizing s with
  | nil => exact h
  | cons l ls ih => exact ih _ (idxStep_inv t c s l h)

/-- C5: for every index stream and filter, the parser never yields a file
with an empty frame list, and every frame of a yielded file holds at
least one matching datum. -/
theorem index_parser_never_empty (lines : List IndexLine) (t c : Str) :
    ∀ f ∈ files_from_index lines t c,
      f.frames ≠ [] ∧ ∀ fr ∈ f.frames, fr.data ≠ [] := by
  have h : idxInv (lines.foldl (idxStep t c) idxInit) := by
    refine idxFold_inv t c lines idxInit ⟨?_, ?_⟩
    · intro f hf
      exact absurd hf (List.not_mem_nil f)
    · intro f hf
      exact Option.noConfusion hf
  intro f hf
  exact h.1 f hf

/-- A small concrete index stream for the C5 witness: one file with one
matching report holding one frame with one datum. -/
def witLines : List IndexLine :=
  [.file "f.tar.lz4".toList,
   .report "x-KZ-y-web_connectivity".toList,
   .frame 0 5, .datum 0 3, .endFrame,
   .endReport, .endFile]

/-- The file `witLines` parses to. -/
def witFile : FileAcc := ⟨"f.tar.lz4".toList, [⟨0, 5, [⟨0, 3⟩]⟩]⟩

/-- Witness for C5: the concrete parse yields `witFile`, whose frame list
is non-empty and whose single frame has a datum. -/
theorem index_parser_never_empty_witness :
    witFile ∈ files_from_index witLines "webconnectivity".toList "KZ".toList
    ∧ witFile.frames ≠ []
    ∧ ∀ fr ∈ witFile.frames, fr.data ≠ [] :=
  ⟨by decide,
   (index_parser_never_empty witLines "webconnectivity".toList "KZ".toList
      witFile (by decide)).1,
   (index_parser_never_empty witLines "webconnectivity".toList "KZ".toList
      witFile (by decide)).2⟩

/-! ## The legacy backend listing (`_LegacyOoniClient.list_files`) -/

/-- One legacy date directory as the store returns it: its date, the
`ContentLength` of its `index.json.gz`, and that index's decoded lines. -/
structure LegacyDateDir where
  ddate : Date
  indexSize : Nat
  indexLines : List IndexLine
deriving DecidableEq

/-- One entry yielded by the legacy backend: the parsed index file entry
the closure receives, the test type, country, date, the S3 object key of
the url, and the size (`_frame_bytes` of the frames). -/
structure LegacyEntry where
  file : FileAcc
  test_type : Str
  country : Str
  edate : Date
  key : Str
  size : Nat
deriving DecidableEq

/-- The request/byte counters of one backend. -/
structure Counters where
  lists : Nat
  gets : Nat
  bytes : Nat
deriving DecidableEq

/-- The legacy bucket key base `autoclaved/jsonl.tar.lz4/`. -/
def legacyKeyBase : Str := "autoclaved/jsonl.tar.lz4/".toList

/-- The entries one date directory contributes: one per file the index
parser yields, with `size = _frame_bytes(frames)`. -/
def legacyListDir (t c : Str) (dir : LegacyDateDir) : List LegacyEntry :=
  (files_from_index dir.indexLines t c).map fun f =>
    ⟨f, t, c, dir.ddate, legacyKeyBase ++ f.filename, frame_bytes f.frames⟩

/-- The per-page directory loop of `_LegacyOoniClient.list_files`:
`if date > last_date: return` before the index is fetched; otherwise one
index GET (`+1` get, `+indexSize` bytes) and the directory's entries.
Returns entries, get count, byte count, and whether the loop returned
early. -/
def legacyDirsGo (t c : Str) (last : Date) :
    List LegacyDateDir → List LegacyEntry × Nat × Nat × Bool
  | [] => ([], 0, 0, false)
  | d :: ds =>
    if last.ltb d.ddate then ([], 0, 0, true)
    else
      let r := legacyDirsGo t c last ds
      (legacyListDir t c d ++ r.1, r.2.1 + 1, r.2.2.1 + d.indexSize, r.2.2.2)

/-- The page loop of `_LegacyOoniClient.list_files`: `+1` list request
per consumed page; a `return` inside a page stops the pagination. -/
def legacyPagesGo (t c : Str) (last : Date) :
    List (List LegacyDateDir) → List LegacyEntry × Counters
  | [] => ([], ⟨0, 0, 0⟩)
  | pg :: pgs =>
    let r := legacyDirsGo t c last pg
    if r.2.2.2 then (r.1, ⟨1, r.2.1, r.2.2.1⟩)
    else
      let rest := legacyPagesGo t c last pgs
      (r.1 ++ rest.1, ⟨rest.2.lists + 1, rest.2.gets + r.2.1, rest.2.bytes + r.2.2.1⟩)

/-- Embeds `_LegacyOoniClient.list_files`: nothing at all happens when
`first_date > dt.date(2020, 10, 21)`. -/
def legacy_list_files (pages : List (List LegacyDateDir)) (first last : Date)
    (t c : Str) : List LegacyEntry × Counters :=
  if legacyCutover.ltb first then ([], ⟨0, 0, 0⟩)
  else legacyPagesGo t c last pages

/-! ## The modern backend listing (`_2020OoniClient.list_files`) -/

/-- One object of an inner listing page: key and `Size`. -/
structure ModernObj where
  key : Str
  size : Nat
deriving DecidableEq

/-- One modern date directory: its date and, for each hour-and-country
inner pagination the code performs under it, the pages of objects the
store returns. -/
structure ModernDateDir where
  ddate : Date
  hourPages : List (List (List ModernObj))
deriving DecidableEq

/-- One entry yielded by the modern backend. -/
structure ModernEntry where
  test_type : Str
  country : Str
  edate : Date
  key : Str
  size : Nat
deriving DecidableEq

/-- Models `file_path.name.endswith('.jsonl.gz')`. -/
def endsWithJsonlGz (s : Str) : Bool := ".jsonl.gz".toList.isSuffixOf s

/-- The entries of one inner page: keep keys whose basename ends in
`.jsonl.gz`; the test type is the parent directory name. -/
def modernObjEntries (c : Str) (d : Date) (objs : List ModernObj) : List ModernEntry :=
  (objs.filter fun o => endsWithJsonlGz (pathName o.key)).map fun o =>
    ⟨pathParentName o.key, c, d, o.key, o.size⟩

/-- All entries of one date directory, over its hour loop and inner
pagination. -/
def modernDirEntries (c : Str) (dir : ModernDateDir) : List ModernEntry :=
  dir.hourPages.flatMap fun hp => hp.flatMap fun page => modernObjEntries c dir.ddate page

/-- The number of inner list requests one date directory costs. -/
def modernDirListCount (dir : ModernDateDir) : Nat :=
  (dir.hourPages.map List.length).sum

/-- The per-page directory loop of `_2020OoniClient.list_files`:
`if date > last_date: return`, else the hour loop with its inner
pagination. Returns entries, inner list-request count, early-return flag. -/
def modernDirsGo (c : Str) (last : Date) :
    List ModernDateDir → List ModernEntry × Nat × Bool
  | [] => ([], 0, false)
  | d :: ds =>
    if last.ltb d.ddate then ([], 0, true)
    else
      let r := modernDirsGo c last ds
      (modernDirEntries c d ++ r.1, r.2.1 + modernDirListCount d, r.2.2)

/-- The outer page loop of `_2020OoniClient.list_files`: `+1` list
request per consumed outer page; never a GET and never a byte during
listing. -/
def modernPagesGo (c : Str) (last : Date) :
    List (List ModernDateDir) → List ModernEntry × Counters
  | [] => ([], ⟨0, 0, 0⟩)
  | pg :: pgs =>
    let r := modernDirsGo c last pg
    if r.2.2 then (r.1, ⟨r.2.1 + 1, 0, 0⟩)
    else
      let rest := modernPagesGo c last pgs
      (r.1 ++ rest.1, ⟨rest.2.lists + r.2.1 + 1, 0, 0⟩)

/-- Embeds `_2020OoniClient.list_files`: nothing at all happens when
`last_date < dt.date(2020, 10, 20)`. -/
def modern_list_files (pages : List (List ModernDateDir)) (_first last : Date)
    (_t c : Str) : List ModernEntry × Counters :=
  if last.ltb modernCutover then ([], ⟨0, 0, 0⟩)
  else modernPagesGo c last pages

/-- One modern object's content: its `ContentLength` and its decoded
JSON lines. -/
structure ModernObjData where
  contentLength : Nat
  lines : List (List Nat)
deriving DecidableEq

/-- Embeds `_2020OoniClient._get_measurements`: one whole-object GET,
`bytes_downloaded += ContentLength`, and the object's lines. -/
def modern_get_measurements (o : ModernObjData) : List (List Nat) × Nat × Nat :=
  (o.lines, 1, o.contentLength)

/-! ## The unified client (`OoniClient`) -/

/-- An entry yielded by the unified client, from either backend. -/
inductive AnyEntry where
  | legacy (e : LegacyEntry)
  | modern (e : ModernEntry)
deriving DecidableEq

/-- The state of the unified client: the two backends' counters. -/
structure OoniClientState where
  newCounters : Counters
  legacyCounters : Counters
deriving DecidableEq

/-- `OoniClient.num_list_requests`: the sum of the backends'. -/
def OoniClientState.num_list_requests (s : OoniClientState) : Nat :=
  s.newCounters.lists + s.legacyCounters.lists

/-- `OoniClient.num_get_requests`: the sum of the backends'. -/
def OoniClientState.num_get_requests (s : OoniClientState) : Nat :=
  s.newCounters.gets + s.legacyCounters.gets

/-- `OoniClient.bytes_downloaded`: the sum of the backends'. -/
def OoniClientState.bytes_downloaded (s : OoniClientState) : Nat :=
  s.newCounters.bytes + s.legacyCounters.bytes

/-- `OoniClient.cost_usd`, over `ℚ` in place of Python floats:
`0.09 * bytes / 2**30 + (0.0004 * gets / 1000 + 0.005 * lists / 1000)`. -/
def OoniClientState.cost_usd (s : OoniClientState) : ℚ :=
  (0.09 : ℚ) * (s.bytes_downloaded : ℚ) / 2 ^ 30 +
    ((0.0004 : ℚ) * (s.num_get_requests : ℚ) / 1000 +
     (0.005 : ℚ) * (s.num_list_requests : ℚ) / 1000)

/-- Embeds `OoniClient.list_files`: all legacy entries, then all modern
entries, with the resulting per-backend counters. -/
def ooni_list_files (lpages : List (List LegacyDateDir))
    (mpages : List (List ModernDateDir)) (first last : Date) (t c : Str) :
    List AnyEntry × OoniClientState :=
  let lr := legacy_list_files lpages first last t c
  let mr := modern_list_files mpages first last t c
  (lr.1.map AnyEntry.legacy ++ mr.1.map AnyEntry.modern, ⟨mr.2, lr.2⟩)

/-! ## Listing-loop characterizations (claims C7 and C9) -/

theorem legacyDirsGo_eq (t c : Str) (last : Date) (ds : List LegacyDateDir) :
    legacyDirsGo t c last ds =
      ((ds.takeWhile fun d => !(last.ltb d.ddate)).flatMap (legacyListDir t c),
       (ds.takeWhile fun d => !(last.ltb d.ddate)).length,
       ((ds.takeWhile fun d => !(last.ltb d.ddate)).map LegacyDateDir.indexSize).sum,
       !(ds.all fun d => !(last.ltb d.ddate))) := by
  induction ds with
  | nil => rfl
  | cons d ds ih =>
    by_cases h : last.ltb d.ddate
    · simp [legacyDirsGo, h, List.takeWhile_cons]
    · simp [legacyDirsGo, h, List.takeWhile_cons, ih, Nat.add_comm]

theorem modernDirsGo_eq (c : Str) (last : Date) (ds : List ModernDateDir) :
    modernDirsGo c last ds =
      ((ds.takeWhile fun d => !(last.ltb d.ddate)).flatMap (modernDirEntries c),
       ((ds.takeWhile fun d => !(last.ltb d.ddate)).map modernDirListCount).sum,
       !(ds.all fun d => !(last.ltb d.ddate))) := by
  induction ds with
  | nil => rfl
  | cons d ds ih =>
    by_cases h : last.ltb d.ddate
    · simp [modernDirsGo, h, List.takeWhile_cons]
    · simp [modernDirsGo, h, List.takeWhile_cons, ih, modernDirListCount, Nat.add_comm]

theorem takeWhile_of_all {α : Type} (p : α → Bool) (l : List α)
    (h : l.all p = true) : l.takeWhile p = l := by
  induction l with
  | nil => rfl
  | cons a t ih =>
    rw [List.all_cons, Bool.and_eq_true] at h
    rw [List.takeWhile_cons, if_pos h.1, ih h.2]

theorem takeWhile_length_lt_of_not_all {α : Type} (p : α → Bool) (l : List α)
    (h : l.all p = false) : (l.takeWhile p).length < l.length := by
  induction l with
  | nil => simp at h
  | cons a t ih =>
    by_cases ha : p a
    · rw [List.all_cons, ha, Bool.true_and] at h
      have hlt := ih h
      simp only [List.takeWhile_cons, if_pos ha, List.length_cons]
      omega
    · simp [List.takeWhile_cons, ha]

theorem legacyPagesGo_append (t c : Str) (last : Date)
    (pages rest : List (List LegacyDateDir))
    (hex : ∃ pg ∈ pages, ∃ d ∈ pg, last.ltb d.ddate = true) :
    legacyPagesGo t c last (pages ++ rest) = legacyPagesGo t c last pages := by
  induction pages with
  | nil => simp at hex
  | cons pg pgs ih =>
    rw [List.cons_append]
    cases hstop : (legacyDirsGo t c last pg).2.2.2 with
    | true => simp only [legacyPagesGo, hstop, if_true]
    | false =>
      have hex' : ∃ pg2 ∈ pgs, ∃ d ∈ pg2, last.ltb d.ddate = true := by
        rcases hex with ⟨pg2, hpg2, d, hd, hdd⟩
        rcases List.mem_cons.mp hpg2 with rfl | h2
        · exfalso
          have hst : (legacyDirsGo t c last pg2).2.2.2 = true := by
            rw [legacyDirsGo_eq]
            simp only [Bool.not_eq_true']
            rw [List.all_eq_false]
            exact ⟨d, hd, by simp [hdd]⟩
          rw [hstop] at hst
          exact Bool.noConfusion hst
        · exact ⟨pg2, h2, d, hd, hdd⟩
      simp only [legacyPagesGo, hstop, Bool.false_eq_true, if_false, ih hex']

theorem modernPagesGo_append (c : Str) (last : Date)
    (pages rest : List (List ModernDateDir))
    (hex : ∃ pg ∈ pages, ∃ d ∈ pg, last.ltb d.ddate = true) :
    modernPagesGo c last (pages ++ rest) = modernPagesGo c last pages := by
  induction pages with
  | nil => simp at hex
  | cons pg pgs ih =>
    rw [List.cons_append]
    cases hstop : (modernDirsGo c last pg).2.2 with
    | true => simp only [modernPagesGo, hstop, if_true]
    | false =>
      have hex' : ∃ pg2 ∈ pgs, ∃ d ∈ pg2, last.ltb d.ddate = true := by
        rcases hex with ⟨pg2, hpg2, d, hd, hdd⟩
        rcases List.mem_cons.mp hpg2 with rfl | h2
        · exfalso
          have hst : (modernDirsGo c last pg2).2.2 = true := by
            rw [modernDirsGo_eq]
            simp only [Bool.not_eq_true']
            rw [List.all_eq_false]
            exact ⟨d, hd, by simp [hdd]⟩
          rw [hstop] at hst
          exact Bool.noConfusion hst
        · exact ⟨pg2, h2, d, hd, hdd⟩
      simp only [modernPagesGo, hstop, Bool.false_eq_true, if_false, ih hex']

/-- C7: the legacy backend yields nothing (and raises nothing) when the
requested range lies entirely after its cutover date 2020-10-21; the
partitioned backend yields nothing when `last_date` precedes its cutover
date 2020-10-20; and each backend stops consuming listing pages as soon
as a listed date directory exceeds `last_date` — appending further pages
after a page holding such a directory changes nothing. -/
theorem listing_date_window_correct :
    (∀ (pages : List (List LegacyDateDir)) (first last : Date) (t c : Str),
        legacyCutover.ltb first = true →
        legacy_list_files pages first last t c = ([], ⟨0, 0, 0⟩))
    ∧ (∀ (pages : List (List ModernDateDir)) (first last : Date) (t c : Str),
        last.ltb modernCutover = true →
        modern_list_files pages first last t c = ([], ⟨0, 0, 0⟩))
    ∧ (∀ (pages rest : List (List LegacyDateDir)) (first last : Date) (t c : Str),
        (∃ pg ∈ pages, ∃ d ∈ pg, last.ltb d.ddate = true) →
        legacy_list_files (pages ++ rest) first last t c =
          legacy_list_files pages first last t c)
    ∧ ∀ (pages rest : List (List ModernDateDir)) (first last : Date) (t c : Str),
        (∃ pg ∈ pages, ∃ d ∈ pg, last.ltb d.ddate = true) →
        modern_list_files (pages ++ rest) first last t c =
          modern_list_files pages first last t c := by
  refine ⟨?_, ?_, ?_, ?_⟩
  · intro pages first last t c h
    simp [legacy_list_files, h]
  · intro pages first last t c h
    simp [modern_list_files, h]
  · intro pages rest first last t c hex
    unfold legacy_list_files
    by_cases hc : legacyCutover.ltb first
    · simp [hc]
    · simp [hc, legacyPagesGo_append t c last pages rest hex]
  · intro pages rest first last t c hex
    unfold modern_list_files
    by_cases hc : last.ltb modernCutover
    · simp [hc]
    · simp [hc, modernPagesGo_append c last pages rest hex]

/-- A legacy date directory after the witness range, for C7. -/
def wLegacyDir : LegacyDateDir := ⟨⟨2020, 5, 1⟩, 7, []⟩

/-- A modern date directory after the witness range, for C7. -/
def wModernDir : ModernDateDir := ⟨⟨2020, 12, 1⟩, []⟩

/-- Witness for C7 at concrete dates and pages. -/
theorem listing_date_window_correct_witness :
    (legacyCutover.ltb ⟨2020, 10, 22⟩ = true
      ∧ legacy_list_files [[wLegacyDir]] ⟨2020, 10, 22⟩ ⟨2020, 10, 23⟩ [] [] =
          ([], ⟨0, 0, 0⟩))
    ∧ (Date.ltb ⟨2020, 10, 19⟩ modernCutover = true
      ∧ modern_list_files [[wModernDir]] ⟨2020, 10, 1⟩ ⟨2020, 10, 19⟩ [] [] =
          ([], ⟨0, 0, 0⟩))
    ∧ ((∃ pg ∈ [[wLegacyDir]], ∃ d ∈ pg, Date.ltb ⟨2020, 1, 1⟩ d.ddate = true)
      ∧ legacy_list_files ([[wLegacyDir]] ++ [[wLegacyDir]]) ⟨2019, 1, 1⟩ ⟨2020, 1, 1⟩ [] [] =
          legacy_list_files [[wLegacyDir]] ⟨2019, 1, 1⟩ ⟨2020, 1, 1⟩ [] [])
    ∧ ((∃ pg ∈ [[wModernDir]], ∃ d ∈ pg, Date.ltb ⟨2020, 11, 1⟩ d.ddate = true)
      ∧ modern_list_files ([[wModernDir]] ++ [[wModernDir]]) ⟨2020, 10, 25⟩ ⟨2020, 11, 1⟩ [] [] =
          modern_list_files [[wModernDir]] ⟨2020, 10, 25⟩ ⟨2020, 11, 1⟩ [] []) :=
  ⟨⟨by decide, listing_date_window_correct.1 _ _ _ _ _ (by decide)⟩,
   ⟨by decide, listing_date_window_correct.2.1 _ _ _ _ _ (by decide)⟩,
   ⟨by decide, listing_date_window_correct.2.2.1 _ _ _ _ _ _ (by decide)⟩,
   ⟨by decide, listing_date_window_correct.2.2.2 _ _ _ _ _ _ (by decide)⟩⟩

/-! ## Counter accounting (claims C9 and C10) -/

/-- The date directories the legacy page loop actually processes (those
before the first directory exceeding `last`). -/
def processedDirs (last : Date) : List (List LegacyDateDir) → List LegacyDateDir
  | [] => []
  | pg :: pgs =>
    let tw := pg.takeWhile fun d => !(last.ltb d.ddate)
    if tw.length = pg.length then tw ++ processedDirs last pgs else tw

/-- The directories the legacy backend fetches an index for, guard
included. -/
def legacyProcessed (pages : List (List LegacyDateDir)) (first last : Date) :
    List LegacyDateDir :=
  if legacyCutover.ltb first then [] else processedDirs last pages

/-- Applying one full consumption of `_LegacyOoniClient._get_measurements`
to the backend's counters. -/
def applyLegacyGet (cnt : Counters) (r : LegacyFetchResult) : Counters :=
  ⟨cnt.lists, cnt.gets + r.gets, cnt.bytes + r.bytes⟩

/-- Applying one full consumption of `_2020OoniClient._get_measurements`
to the backend's counters. -/
def applyModernGet (cnt : Counters) (r : List (List Nat) × Nat × Nat) : Counters :=
  ⟨cnt.lists, cnt.gets + r.2.1, cnt.bytes + r.2.2⟩

theorem legacyPagesGo_counters (t c : Str) (last : Date)
    (pages : List (List LegacyDateDir)) :
    (legacyPagesGo t c last pages).2.gets = (processedDirs last pages).length
    ∧ (legacyPagesGo t c last pages).2.bytes =
        ((processedDirs last pages).map LegacyDateDir.indexSize).sum := by
  induction pages with
  | nil => exact ⟨rfl, rfl⟩
  | cons pg pgs ih =>
    have hd := legacyDirsGo_eq t c last pg
    by_cases hall : pg.all (fun d => !(last.ltb d.ddate)) = true
    · have htw := takeWhile_of_all _ _ hall
      refine ⟨?_, ?_⟩
      · simp only [legacyPagesGo, hd, processedDirs, htw]
        simp [hall, ih.1, Nat.add_comm]
      · simp only [legacyPagesGo, hd, processedDirs, htw]
        simp [hall, ih.2, Nat.add_comm]
    · have hallf : pg.all (fun d => !(last.ltb d.ddate)) = false :=
        Bool.eq_false_iff.mpr hall
      have hlt := takeWhile_length_lt_of_not_all _ _ hallf
      have hne : ((pg.takeWhile fun d => !(last.ltb d.ddate)).length ≠ pg.length) :=
        Nat.ne_of_lt hlt
      refine ⟨?_, ?_⟩
      · simp only [legacyPagesGo, hd, processedDirs]
        simp [hallf, hne]
      · simp only [legacyPagesGo, hd, processedDirs]
        simp [hallf, hne]

theorem modernPagesGo_counters (c : Str) (last : Date)
    (pages : List (List ModernDateDir)) :
    (modernPagesGo c last pages).2.gets = 0
    ∧ (modernPagesGo c last pages).2.bytes = 0 := by
  induction pages with
  | nil => exact ⟨rfl, rfl⟩
  | cons pg pgs ih =>
    cases hstop : (modernDirsGo c last pg).2.2 with
    | true => simp [modernPagesGo, hstop]
    | false => simp [modernPagesGo, hstop, ih.1, ih.2]

/-- C9: counters move only with network calls. Listing increments
get/byte counters only for the index objects the legacy backend actually
fetches (never for a yielded entry's content), the modern backend's
listing never touches get/byte counters, and consuming the same entry's
`get_measurements` twice applies its GET count and byte count twice —
nothing is cached. -/
theorem counters_network_only :
    (∀ (pages : List (List LegacyDateDir)) (first last : Date) (t c : Str),
        (legacy_list_files pages first last t c).2.gets =
          (legacyProcessed pages first last).length
        ∧ (legacy_list_files pages first last t c).2.bytes =
            ((legacyProcessed pages first last).map LegacyDateDir.indexSize).sum)
    ∧ (∀ (pages : List (List ModernDateDir)) (first last : Date) (t c : Str),
        (modern_list_files pages first last t c).2.gets = 0
        ∧ (modern_list_files pages first last t c).2.bytes = 0)
    ∧ (∀ (decomp : Nat → Nat → List Nat) (file : FileAcc) (cnt : Counters),
        applyLegacyGet (applyLegacyGet cnt (legacy_get_measurements decomp file))
            (legacy_get_measurements decomp file) =
          ⟨cnt.lists, cnt.gets + 2 * (planSegments file.frames).length,
           cnt.bytes +
             2 * ((planSegments file.frames).map fun s => s.seg_end - s.seg_start).sum⟩)
    ∧ ∀ (o : ModernObjData) (cnt : Counters),
        applyModernGet (applyModernGet cnt (modern_get_measurements o))
            (modern_get_measurements o) =
          ⟨cnt.lists, cnt.gets + 2, cnt.bytes + 2 * o.contentLength⟩ := by
  refine ⟨?_, ?_, ?_, ?_⟩
  · intro pages first last t c
    unfold legacy_list_files legacyProcessed
    by_cases hc : legacyCutover.ltb first
    · simp [hc]
    · simp only [hc, Bool.false_eq_true, if_false]
      exact legacyPagesGo_counters t c last pages
  · intro pages first last t c
    unfold modern_list_files
    by_cases hc : last.ltb modernCutover
    · simp [hc]
    · simp only [hc, Bool.false_eq_true, if_false]
      exact modernPagesGo_counters c last pages
  · intro decomp file cnt
    simp only [applyLegacyGet, legacy_get_measurements]
    refine congrArg₂ (fun a b => Counters.mk cnt.lists a b) ?_ ?_ <;> omega
  · intro o cnt
    simp only [applyModernGet, modern_get_measurements]
    refine congrArg₂ (fun a b => Counters.mk cnt.lists a b) ?_ ?_ <;> omega

/-! ## Byte accounting of segments (claim C10) -/

theorem foldl_add_sizes (l : List FrameAcc) (n : Nat) :
    l.foldl (fun b f => b + f.file_size) n = n + (l.map FrameAcc.file_size).sum := by
  induction l generalizing n with
  | nil => simp
  | cons f t ih => simp [ih, Nat.add_assoc]

theorem frame_bytes_eq_sum (l : List FrameAcc) :
    frame_bytes l = (l.map FrameAcc.file_size).sum := by
  simpa using foldl_add_sizes l 0

/-- Summed over all planned segments, `segment_end - segment_start` is
the total `file_size` of all frames. -/
theorem planSegments_bytes (l : List FrameAcc) :
    ((planSegments l).map fun s => s.seg_end - s.seg_start).sum =
      (l.map FrameAcc.file_size).sum := by
  induction l using planSegments.induct with
  | case1 => simp [planSegments]
  | case2 f rest r ih =>
    have hr : r = growSegment (f.file_off + f.file_size) rest := rfl
    obtain ⟨he, hsplit⟩ := growSegment_parts (f.file_off + f.file_size) rest
    rw [← hr] at he hsplit
    rw [planSegments]
    simp only [List.map_cons, List.sum_cons, ← hr]
    rw [ih]
    conv_rhs => rw [← hsplit]
    simp only [List.map_append, List.sum_append]
    omega

/-- C10: every legacy `FileEntry`'s size equals the total `file_size` of
its surviving frames, and fully consuming its `get_measurements`
increases `bytes_downloaded` by exactly that size, because the planned
segments' lengths sum to the frames' total size. -/
theorem legacy_size_accounting :
    (∀ frames : List FrameAcc,
        ((planSegments frames).map fun s => s.seg_end - s.seg_start).sum =
          frame_bytes frames)
    ∧ (∀ (decomp : Nat → Nat → List Nat) (file : FileAcc),
        (legacy_get_measurements decomp file).bytes = frame_bytes file.frames)
    ∧ ∀ (t c : Str) (dir : LegacyDateDir),
        (legacyListDir t c dir).map LegacyEntry.size =
          (legacyListDir t c dir).map fun e => frame_bytes e.file.frames := by
  refine ⟨?_, ?_, ?_⟩
  · intro frames
    rw [planSegments_bytes, frame_bytes_eq_sum]
  · intro decomp file
    show ((planSegments file.frames).map fun s => s.seg_end - s.seg_start).sum = _
    rw [planSegments_bytes, frame_bytes_eq_sum]
  · intro t c dir
    simp [legacyListDir, List.map_map, Function.comp]

/-! ## Unified client aggregation (claim C8) -/

/-- C8: the unified client's listing is every legacy entry in order
followed by every modern entry; at any state the aggregate counters are
the sums of the two backends' counters; and the cost is 0.09 USD per GiB
downloaded plus 0.0004 USD per 1000 GET requests plus 0.005 USD per 1000
LIST requests, computed from the aggregates. -/
theorem client_aggregation :
    (∀ (lpages : List (List LegacyDateDir)) (mpages : List (List ModernDateDir))
        (first last : Date) (t c : Str),
        (ooni_list_files lpages mpages first last t c).1 =
          (legacy_list_files lpages first last t c).1.map AnyEntry.legacy ++
            (modern_list_files mpages first last t c).1.map AnyEntry.modern
        ∧ (ooni_list_files lpages mpages first last t c).2 =
            ⟨(modern_list_files mpages first last t c).2,
             (legacy_list_files lpages first last t c).2⟩)
    ∧ (∀ s : OoniClientState,
        s.num_list_requests = s.newCounters.lists + s.legacyCounters.lists
        ∧ s.num_get_requests = s.newCounters.gets + s.legacyCounters.gets
        ∧ s.bytes_downloaded = s.newCounters.bytes + s.legacyCounters.bytes)
    ∧ ∀ s : OoniClientState,
        s.cost_usd = (9 : ℚ) / 100 * (s.bytes_downloaded : ℚ) / 2 ^ 30 +
          ((4 : ℚ) / 10000 * (s.num_get_requests : ℚ) / 1000 +
           (5 : ℚ) / 1000 * (s.num_list_requests : ℚ) / 1000) := by
  refine ⟨?_, ?_, ?_⟩
  · intro lpages mpages first last t c
    exact ⟨rfl, rfl⟩
  · intro s
    exact ⟨rfl, rfl, rfl⟩
  · intro s
    unfold OoniClientState.cost_usd
    norm_num

/-! ## The frame decoder across segments (claim C2) -/

/-- First matching frame of the C2 input: compressed range `[0, 10)`,
one datum at file-text `[0, 4)`. -/
def bugFrame1 : FrameAcc := ⟨0, 10, [⟨0, 4⟩]⟩

/-- Second matching frame: compressed range `[20, 30)` (a gap after
`bugFrame1`, so it is planned as its own segment), one datum at
file-text `[4, 8)`. -/
def bugFrame2 : FrameAcc := ⟨20, 10, [⟨4, 4⟩]⟩

/-- The C2 file: two frames in two disjoint segments. -/
def bugFile : FileAcc := ⟨"f.json.lz4".toList, [bugFrame1, bugFrame2]⟩

/-- The file's decompressed text: `bugFrame1` decompresses to its bytes
`[0, 4)` and `bugFrame2` to its bytes `[4, 12)`. -/
def bugFileText : List Nat := [1, 2, 3, 4, 5, 6, 7, 8, 9, 10, 11, 12]

/-- Decompressing each fetched compressed range yields that range's
frames' decompressed text. -/
def bugDecomp : Nat → Nat → List Nat := fun s _ =>
  if s = 0 then [1, 2, 3, 4]
  else if s = 20 then [5, 6, 7, 8, 9, 10, 11, 12]
  else []

/-- What the spec's round-trip property expects: each datum's original
bytes, read at `text_off` relative to the start of the file's
decompressed text. -/
def bugOriginals : List (List Nat) :=
  (bugFile.frames.flatMap FrameAcc.data).map fun d =>
    (bugFileText.drop d.text_off).take d.text_size

/-- C2, evaluated at the failing input: the file splits into two
segments; the decoder reproduces the first datum (its segment starts at
file-text offset 0) but, because `bytes_read` restarts at 0 for the
second segment while `text_off` stays file-relative, it skips 4 bytes
into the second segment's own stream and returns bytes `[9, 10, 11, 12]`
instead of the original `[5, 6, 7, 8]`. -/
theorem frame_decoder_multisegment_diverges :
    planSegments bugFile.frames = [⟨0, 10, [bugFrame1]⟩, ⟨20, 30, [bugFrame2]⟩]
    ∧ bugOriginals = [[1, 2, 3, 4], [5, 6, 7, 8]]
    ∧ (legacy_get_measurements bugDecomp bugFile).records =
        [[1, 2, 3, 4], [9, 10, 11, 12]]
    ∧ (legacy_get_measurements bugDecomp bugFile).records ≠ bugOriginals := by
  have hseg : planSegments bugFile.frames =
      [⟨0, 10, [bugFrame1]⟩, ⟨20, 30, [bugFrame2]⟩] := by
    simp [bugFile, bugFrame1, bugFrame2, planSegments, growSegment]
  have hget : (legacy_get_measurements bugDecomp bugFile).records =
      [[1, 2, 3, 4], [9, 10, 11, 12]] := by
    unfold legacy_get_measurements
    rw [hseg]
    decide
  refine ⟨hseg, by decide, hget, ?_⟩
  rw [hget]
  decide

/-! ## Closure rebinding in the listing loops (claim C3) -/

/-- In `_2020OoniClient.list_files` each yielded entry carries the
closure `lambda: self._get_measurements(url)`. A Python closure captures
the variable `url` itself, not its value, and the listing generator
rebinds `url` once per yielded object; so once the caller has advanced
the listing iterator through `k` entries, every closure yielded so far
reads the `k`-th entry's binding when invoked. `modernClosureKey entries
k` is the object key such a closure fetches at that point (`none` while
nothing has been yielded). The same rebinding applies to `file_entry` in
`_LegacyOoniClient.list_files`. -/
def modernClosureKey (entries : List ModernEntry) (k : Nat) : Option Str :=
  ((entries.take k).getLast?).map ModernEntry.key

/-- First object of the C3 listing. -/
def objA : ModernObj := ⟨"raw/20201021/00/BR/webconnectivity/a.jsonl.gz".toList, 10⟩

/-- Second object of the C3 listing. -/
def objB : ModernObj := ⟨"raw/20201021/00/BR/webconnectivity/b.jsonl.gz".toList, 20⟩

/-- A modern listing page set with one date directory holding the two
objects in one inner page. -/
def modPages : List (List ModernDateDir) := [[⟨⟨2020, 10, 21⟩, [[[objA, objB]]]⟩]]

/-- The entries that listing yields. -/
def modEntries : List ModernEntry :=
  (modern_list_files modPages ⟨2020, 10, 21⟩ ⟨2020, 10, 22⟩
    "webconnectivity".toList "BR".toList).1

/-- C3, evaluated at the failing input: the listing yields two entries,
for `objA` then `objB`; after the caller advances the iterator through
both, the first entry's `get_measurements` closure reads the shared
binding, which now holds `objB`'s key — not the first entry's own key. -/
theorem listing_closure_rebinding_diverges :
    modEntries.length = 2
    ∧ modEntries.map ModernEntry.key = [objA.key, objB.key]
    ∧ modernClosureKey modEntries 2 = some objB.key
    ∧ modernClosureKey modEntries 2 ≠ some ((modEntries.map ModernEntry.key)[0]!) :=
  ⟨by decide, by decide, by decide, by decide⟩

/-! ## End-to-end legacy scenario (claim C6) -/

/-- The report name of the C6 index: country `KZ`, test
`web_connectivity`. -/
def c6ReportName : Str :=
  "2020-01-01/20200101T000000Z-KZ-AS1-web_connectivity-probe.json.lz4".toList

/-- The C6 index stream: one file, one matching report owning two
adjacent frames (`[0, 1000)` and `[1000, 2000)`), one datum each. -/
def c6Lines : List IndexLine :=
  [.file "2020-01-01/f.tar.lz4".toList,
   .report c6ReportName,
   .frame 0 1000, .datum 0 10, .endFrame,
   .frame 1000 1000, .datum 10 7, .endFrame,
   .endReport, .endFile]

/-- The file the C6 index parses to. -/
def c6File : FileAcc :=
  ⟨"2020-01-01/f.tar.lz4".toList,
   [⟨0, 1000, [⟨0, 10⟩]⟩, ⟨1000, 1000, [⟨10, 7⟩]⟩]⟩

/-- The single date directory of the C6 scenario. -/
def c6Dir : LegacyDateDir := ⟨⟨2020, 1, 1⟩, 100, c6Lines⟩

/-- Decompressing the single planned range `[0, 2000)` yields the 17
bytes of text the two frames hold. -/
def c6Decomp : Nat → Nat → List Nat := fun s _ =>
  if s = 0 then List.range 17 else []

/-- C6: listing the C6 store for `("webconnectivity", "KZ")` yields
exactly one file entry, for `c6File` with size 2000; materializing it
plans exactly one segment covering bytes `[0, 2000)`, issues exactly one
ranged GET of 2000 bytes, and yields exactly two records. -/
theorem end_to_end_two_adjacent_frames :
    (legacy_list_files [[c6Dir]] ⟨2020, 1, 1⟩ ⟨2020, 1, 2⟩
        "webconnectivity".toList "KZ".toList).1.length = 1
    ∧ (legacy_list_files [[c6Dir]] ⟨2020, 1, 1⟩ ⟨2020, 1, 2⟩
        "webconnectivity".toList "KZ".toList).1.map LegacyEntry.file = [c6File]
    ∧ (legacy_list_files [[c6Dir]] ⟨2020, 1, 1⟩ ⟨2020, 1, 2⟩
        "webconnectivity".toList "KZ".toList).1.map LegacyEntry.size = [2000]
    ∧ planSegments c6File.frames = [⟨0, 2000, c6File.frames⟩]
    ∧ (legacy_get_measurements c6Decomp c6File).gets = 1
    ∧ (legacy_get_measurements c6Decomp c6File).bytes = 2000
    ∧ (legacy_get_measurements c6Decomp c6File).records.length = 2
    ∧ (legacy_get_measurements c6Decomp c6File).records =
        [[0, 1, 2, 3, 4, 5, 6, 7, 8, 9], [10, 11, 12, 13, 14, 15, 16]] := by
  have hseg : planSegments c6File.frames = [⟨0, 2000, c6File.frames⟩] := by
    simp [c6File, planSegments, growSegment]
  have hget : legacy_get_measurements c6Decomp c6File =
      ⟨[[0, 1, 2, 3, 4, 5, 6, 7, 8, 9], [10, 11, 12, 13, 14, 15, 16]], 1, 2000⟩ := by
    unfold legacy_get_measurements
    rw [hseg]
    decide
  refine ⟨by decide, by decide, by decide, hseg, ?_, ?_, ?_, ?_⟩ <;> simp [hget]

end OoniSpec
